import Mathlib

/-!
Verification of the moving_min_max library (src/lib.rs): a sliding-window
minimum/maximum tracker built from two stacks of (value, running extremum)
pairs.  Stacks are embedded as Lean lists whose HEAD is the stack TOP
(Rust's Vec push/pop/last act on the end of the Vec, which is the head of
our lists).
-/
universe u

variable {α : Type u}

/-- Operations a caller can perform on a tracker. -/
inductive Op (α : Type u) where
  | push (v : α)
  | pop
deriving Repr

/-- State of MovingMin (src/lib.rs lines 59-62): two stacks of
(value, running minimum) pairs; list head = stack top. -/
structure MovingMin (α : Type u) where
  push_stack : List (α × α)
  pop_stack : List (α × α)
deriving Repr, DecidableEq

/-- State of MovingMax (src/lib.rs lines 140-143). -/
structure MovingMax (α : Type u) where
  push_stack : List (α × α)
  pop_stack : List (α × α)
deriving Repr, DecidableEq

/-- MovingMin::new (lib.rs 67-72): both stacks empty. -/
def MovingMin.new : MovingMin α := ⟨[], []⟩

/-- MovingMax::new (lib.rs 147-152). -/
def MovingMax.new : MovingMax α := ⟨[], []⟩

/-- MovingMin::min (lib.rs 85-92): match on the two stack tops. -/
def MovingMin.min [LinearOrder α] (s : MovingMin α) : Option α :=
  match s.push_stack.head?, s.pop_stack.head? with
  | none, none => none
  | some (_, m), none => some m
  | none, some (_, m) => some m
  | some (_, a), some (_, b) => some (if a < b then a else b)

/-- MovingMax::max (lib.rs 164-171). -/
def MovingMax.max [LinearOrder α] (s : MovingMax α) : Option α :=
  match s.push_stack.head?, s.pop_stack.head? with
  | none, none => none
  | some (_, m), none => some m
  | none, some (_, m) => some m
  | some (_, a), some (_, b) => some (if a > b then a else b)

/-- MovingMin::push (lib.rs 95-106): the new pair's second component is the
previous top's running min unless the value improves (does not exceed) it. -/
def MovingMin.push [LinearOrder α] (s : MovingMin α) (val : α) : MovingMin α :=
  { s with push_stack :=
      (match s.push_stack.head? with
        | some (_, m) => if val > m then (val, m) else (val, val)
        | none => (val, val)) :: s.push_stack }

/-- MovingMax::push (lib.rs 174-185): mirror with the comparison inverted. -/
def MovingMax.push [LinearOrder α] (s : MovingMax α) (val : α) : MovingMax α :=
  { s with push_stack :=
      (match s.push_stack.head? with
        | some (_, m) => if val < m then (val, m) else (val, val)
        | none => (val, val)) :: s.push_stack }

/-- Transfer loop of MovingMin::pop (lib.rs 114-125): drain the remaining
push stack onto the accumulating pop stack, recomputing running minima
seeded from the pop stack's own top.  The source reads that top with an
unchecked index; here the total embedding reads it with head? and, in the
(unreachable when the accumulator is nonempty) none branch, uses the bare
value. -/
def transferMin [LinearOrder α] : List (α × α) → List (α × α) → List (α × α)
  | [], acc => acc
  | (val, _) :: rest, acc =>
      let m := match acc.head? with
        | some last => if last.2 < val then last.2 else val
        | none => val
      transferMin rest ((val, m) :: acc)

/-- Transfer loop of MovingMax::pop (lib.rs 193-204). -/
def transferMax [LinearOrder α] : List (α × α) → List (α × α) → List (α × α)
  | [], acc => acc
  | (val, _) :: rest, acc =>
      let m := match acc.head? with
        | some last => if last.2 > val then last.2 else val
        | none => val
      transferMax rest ((val, m) :: acc)

/-- Checked variant of the MovingMin transfer loop in which the source's
unchecked read of the pop-stack top returns none (out of bounds) instead of
being undefined behaviour. -/
def transferMinChecked [LinearOrder α] :
    List (α × α) → List (α × α) → Option (List (α × α))
  | [], acc => some acc
  | (val, _) :: rest, acc =>
      match acc.head? with
      | some last =>
          transferMinChecked rest
            ((val, if last.2 < val then last.2 else val) :: acc)
      | none => none

/-- Checked variant of the MovingMax transfer loop. -/
def transferMaxChecked [LinearOrder α] :
    List (α × α) → List (α × α) → Option (List (α × α))
  | [], acc => some acc
  | (val, _) :: rest, acc =>
      match acc.head? with
      | some last =>
          transferMaxChecked rest
            ((val, if last.2 > val then last.2 else val) :: acc)
      | none => none

/-- MovingMin::pop (lib.rs 109-131): if the pop stack is empty, either
return none (window empty) or transfer the whole push stack over (the first
element seeds the pop stack with (val, val)); finally remove the pop
stack's top and return its value component. -/
def MovingMin.pop [LinearOrder α] (s : MovingMin α) :
    Option α × MovingMin α :=
  match s.pop_stack with
  | [] =>
      match s.push_stack with
      | [] => (none, s)
      | (val, _) :: rest =>
          let newPop := transferMin rest [(val, val)]
          (newPop.head?.map Prod.fst, ⟨[], newPop.tail⟩)
  | (val, _) :: popRest => (some val, ⟨s.push_stack, popRest⟩)

/-- MovingMax::pop (lib.rs 188-210). -/
def MovingMax.pop [LinearOrder α] (s : MovingMax α) :
    Option α × MovingMax α :=
  match s.pop_stack with
  | [] =>
      match s.push_stack with
      | [] => (none, s)
      | (val, _) :: rest =>
          let newPop := transferMax rest [(val, val)]
          (newPop.head?.map Prod.fst, ⟨[], newPop.tail⟩)
  | (val, _) :: popRest => (some val, ⟨s.push_stack, popRest⟩)

/-- MovingMin::len (lib.rs 134-136): sum of the two stacks' sizes. -/
def MovingMin.len (s : MovingMin α) : Nat :=
  s.push_stack.length + s.pop_stack.length

/-- MovingMax::len (lib.rs 213-215). -/
def MovingMax.len (s : MovingMax α) : Nat :=
  s.push_stack.length + s.pop_stack.length

/-- Run a sequence of operations on a MovingMin, oldest operation first. -/
def MovingMin.run [LinearOrder α] : List (Op α) → MovingMin α → MovingMin α
  | [], s => s
  | Op.push v :: ops, s => MovingMin.run ops (s.push v)
  | Op.pop :: ops, s => MovingMin.run ops (s.pop).2

/-- Run a sequence of operations on a MovingMax. -/
def MovingMax.run [LinearOrder α] : List (Op α) → MovingMax α → MovingMax α
  | [], s => s
  | Op.push v :: ops, s => MovingMax.run ops (s.push v)
  | Op.pop :: ops, s => MovingMax.run ops (s.pop).2

/-- Multiset of values currently logically in the window, oldest first: the
pop stack top-to-bottom (top is the oldest element) followed by the push
stack bottom-to-top. -/
def MovingMin.window (s : MovingMin α) : List α :=
  s.pop_stack.map Prod.fst ++ (s.push_stack.map Prod.fst).reverse

/-- Window of a MovingMax, oldest first. -/
def MovingMax.window (s : MovingMax α) : List α :=
  s.pop_stack.map Prod.fst ++ (s.push_stack.map Prod.fst).reverse

/-- Naive reference implementation: rescan the whole window for its
minimum; none on the empty window. -/
def naiveMin [LinearOrder α] : List α → Option α
  | [] => none
  | x :: xs =>
      match naiveMin xs with
      | none => some x
      | some m => some (Min.min x m)

/-- Naive reference implementation of the window maximum. -/
def naiveMax [LinearOrder α] : List α → Option α
  | [] => none
  | x :: xs =>
      match naiveMax xs with
      | none => some x
      | some m => some (Max.max x m)

/-- Combine two optional minima: none acts as the neutral element. -/
def omin [LinearOrder α] : Option α → Option α → Option α
  | none, b => b
  | some a, none => some a
  | some a, some b => some (Min.min a b)

/-- Combine two optional maxima. -/
def omax [LinearOrder α] : Option α → Option α → Option α
  | none, b => b
  | some a, none => some a
  | some a, some b => some (Max.max a b)

/-- Running-minimum invariant of one stack (list head = top): each entry's
second component is the minimum of the value components of that entry and
all entries below it. -/
def MinStackInv [LinearOrder α] : List (α × α) → Prop
  | [] => True
  | (v, m) :: rest => naiveMin (v :: rest.map Prod.fst) = some m ∧
      MinStackInv rest

/-- Running-maximum invariant of one stack. -/
def MaxStackInv [LinearOrder α] : List (α × α) → Prop
  | [] => True
  | (v, m) :: rest => naiveMax (v :: rest.map Prod.fst) = some m ∧
      MaxStackInv rest

/-- The two-stack invariant of a MovingMin state: both stacks carry correct
running minima. -/
def MovingMin.Inv [LinearOrder α] (s : MovingMin α) : Prop :=
  MinStackInv s.push_stack ∧ MinStackInv s.pop_stack

/-- The two-stack invariant of a MovingMax state: both stacks carry correct
running maxima. -/
def MovingMax.Inv [LinearOrder α] (s : MovingMax α) : Prop :=
  MaxStackInv s.push_stack ∧ MaxStackInv s.pop_stack

/-- Push a list of values in order, oldest first. -/
def MovingMin.pushAll [LinearOrder α] : List α → MovingMin α → MovingMin α
  | [], s => s
  | v :: vs, s => MovingMin.pushAll vs (s.push v)

/-- Push a list of values in order into a MovingMax. -/
def MovingMax.pushAll [LinearOrder α] : List α → MovingMax α → MovingMax α
  | [], s => s
  | v :: vs, s => MovingMax.pushAll vs (s.push v)

/-- Results of n successive pop calls, in order. -/
def MovingMin.drain [LinearOrder α] : Nat → MovingMin α → List (Option α)
  | 0, _ => []
  | Nat.succ n, s => (s.pop).1 :: MovingMin.drain n (s.pop).2

/-- Results of n successive pop calls on a MovingMax. -/
def MovingMax.drain [LinearOrder α] : Nat → MovingMax α → List (Option α)
  | 0, _ => []
  | Nat.succ n, s => (s.pop).1 :: MovingMax.drain n (s.pop).2

/-- Number of push operations in a sequence. -/
def countPushes : List (Op α) → Nat
  | [] => 0
  | Op.push _ :: ops => countPushes ops + 1
  | Op.pop :: ops => countPushes ops

/-- Number of pop operations that return a value when the sequence runs
from the given MovingMin state. -/
def MovingMin.countOkPops [LinearOrder α] :
    List (Op α) → MovingMin α → Nat
  | [], _ => 0
  | Op.push v :: ops, s => MovingMin.countOkPops ops (s.push v)
  | Op.pop :: ops, s =>
      match s.pop with
      | (some _, s2) => MovingMin.countOkPops ops s2 + 1
      | (none, s2) => MovingMin.countOkPops ops s2

/-- Number of pop operations that return a value, MovingMax variant. -/
def MovingMax.countOkPops [LinearOrder α] :
    List (Op α) → MovingMax α → Nat
  | [], _ => 0
  | Op.push v :: ops, s => MovingMax.countOkPops ops (s.push v)
  | Op.pop :: ops, s =>
      match s.pop with
      | (some _, s2) => MovingMax.countOkPops ops s2 + 1
      | (none, s2) => MovingMax.countOkPops ops s2

/-- MovingMin::pop with the transfer loop's unchecked read modelled as a
fallible access: an overall none signals an out-of-bounds read. -/
def MovingMin.popChecked [LinearOrder α] (s : MovingMin α) :
    Option (Option α × MovingMin α) :=
  match s.pop_stack with
  | [] =>
      match s.push_stack with
      | [] => some (none, s)
      | (val, _) :: rest =>
          (transferMinChecked rest [(val, val)]).map
            (fun newPop => (newPop.head?.map Prod.fst,
              MovingMin.mk [] newPop.tail))
  | (val, _) :: popRest => some (some val, ⟨s.push_stack, popRest⟩)

/-- MovingMax::pop with the unchecked read modelled as fallible. -/
def MovingMax.popChecked [LinearOrder α] (s : MovingMax α) :
    Option (Option α × MovingMax α) :=
  match s.pop_stack with
  | [] =>
      match s.push_stack with
      | [] => some (none, s)
      | (val, _) :: rest =>
          (transferMaxChecked rest [(val, val)]).map
            (fun newPop => (newPop.head?.map Prod.fst,
              MovingMax.mk [] newPop.tail))
  | (val, _) :: popRest => some (some val, ⟨s.push_stack, popRest⟩)

/-- Elementary work of one pop call: one removal when the pop stack is
ready; otherwise a full transfer of k elements costs k moves, at most k-1
comparisons and one final removal, bounded by 2k (0 on the empty window). -/
def MovingMin.popCost [LinearOrder α] (s : MovingMin α) : Nat :=
  match s.pop_stack with
  | [] => 2 * s.push_stack.length
  | _ :: _ => 1

/-- Elementary work of one MovingMax pop call. -/
def MovingMax.popCost [LinearOrder α] (s : MovingMax α) : Nat :=
  match s.pop_stack with
  | [] => 2 * s.push_stack.length
  | _ :: _ => 1

/-- Total elementary work of a sequence of operations: each push costs 2
(one comparison, one append), each pop costs popCost. -/
def MovingMin.runCost [LinearOrder α] : List (Op α) → MovingMin α → Nat
  | [], _ => 0
  | Op.push v :: ops, s => 2 + MovingMin.runCost ops (s.push v)
  | Op.pop :: ops, s => s.popCost + MovingMin.runCost ops (s.pop).2

/-- Total elementary work on a MovingMax. -/
def MovingMax.runCost [LinearOrder α] : List (Op α) → MovingMax α → Nat
  | [], _ => 0
  | Op.push v :: ops, s => 2 + MovingMax.runCost ops (s.push v)
  | Op.pop :: ops, s => s.popCost + MovingMax.runCost ops (s.pop).2

/-- Potential of a state for the amortized analysis. -/
def MovingMin.pot (s : MovingMin α) : Nat :=
  3 * s.push_stack.length + s.pop_stack.length

/-- Potential of a MovingMax state. -/
def MovingMax.pot (s : MovingMax α) : Nat :=
  3 * s.push_stack.length + s.pop_stack.length

/-- Transport a stack entry to the dual order. -/
def dualPair (p : α × α) : αᵒᵈ × αᵒᵈ :=
  (OrderDual.toDual p.1, OrderDual.toDual p.2)

/-- View a MovingMax state over a linear order as a MovingMin state over
the dual (reversed) order. -/
def MovingMax.toDualMin (s : MovingMax α) : MovingMin αᵒᵈ :=
  ⟨s.push_stack.map dualPair, s.pop_stack.map dualPair⟩

/-- Transport an operation to the dual order. -/
def Op.dual : Op α → Op αᵒᵈ
  | Op.push v => Op.push (OrderDual.toDual v)
  | Op.pop => Op.pop

theorem naiveMin_cons [LinearOrder α] (x : α) (xs : List α) :
    naiveMin (x :: xs) = omin (some x) (naiveMin xs) := by
  cases h : naiveMin xs <;> simp [naiveMin, omin, h]

theorem omin_assoc [LinearOrder α] (a b c : Option α) :
    omin (omin a b) c = omin a (omin b c) := by
  cases a <;> cases b <;> cases c <;> simp [omin, min_assoc]

theorem omin_comm [LinearOrder α] (a b : Option α) :
    omin a b = omin b a := by
  cases a <;> cases b <;> simp [omin, min_comm]

theorem naiveMin_append [LinearOrder α] (a b : List α) :
    naiveMin (a ++ b) = omin (naiveMin a) (naiveMin b) := by
  induction a with
  | nil => simp [naiveMin, omin]
  | cons x xs ih =>
      simp only [List.cons_append, naiveMin_cons, ih, omin_assoc]

theorem naiveMin_reverse [LinearOrder α] (l : List α) :
    naiveMin l.reverse = naiveMin l := by
  induction l with
  | nil => rfl
  | cons x xs ih =>
      rw [List.reverse_cons, naiveMin_append, ih, omin_comm]
      show omin (some x) (naiveMin xs) = naiveMin (x :: xs)
      rw [naiveMin_cons]

theorem naiveMax_cons [LinearOrder α] (x : α) (xs : List α) :
    naiveMax (x :: xs) = omax (some x) (naiveMax xs) := by
  cases h : naiveMax xs <;> simp [naiveMax, omax, h]

theorem omax_assoc [LinearOrder α] (a b c : Option α) :
    omax (omax a b) c = omax a (omax b c) := by
  cases a <;> cases b <;> cases c <;> simp [omax, max_assoc]

theorem omax_comm [LinearOrder α] (a b : Option α) :
    omax a b = omax b a := by
  cases a <;> cases b <;> simp [omax, max_comm]

theorem naiveMax_append [LinearOrder α] (a b : List α) :
    naiveMax (a ++ b) = omax (naiveMax a) (naiveMax b) := by
  induction a with
  | nil => simp [naiveMax, omax]
  | cons x xs ih =>
      simp only [List.cons_append, naiveMax_cons, ih, omax_assoc]

theorem naiveMax_reverse [LinearOrder α] (l : List α) :
    naiveMax l.reverse = naiveMax l := by
  induction l with
  | nil => rfl
  | cons x xs ih =>
      rw [List.reverse_cons, naiveMax_append, ih, omax_comm]
      show omax (some x) (naiveMax xs) = naiveMax (x :: xs)
      rw [naiveMax_cons]

theorem minStackInv_tail [LinearOrder α] {l : List (α × α)}
    (h : MinStackInv l) : MinStackInv l.tail := by
  cases l with
  | nil => trivial
  | cons e rest => exact h.2

theorem maxStackInv_tail [LinearOrder α] {l : List (α × α)}
    (h : MaxStackInv l) : MaxStackInv l.tail := by
  cases l with
  | nil => trivial
  | cons e rest => exact h.2

theorem ite_lt_eq_min [LinearOrder α] (m v : α) :
    (if m < v then m else v) = Min.min v m := by
  rcases lt_or_ge m v with h | h
  · simp [h, min_eq_right h.le]
  · simp [not_lt.mpr h, min_eq_left h]

theorem ite_gt_eq_max [LinearOrder α] (m v : α) :
    (if m > v then m else v) = Max.max v m := by
  rcases lt_or_ge v m with h | h
  · simp [h, max_eq_right h.le]
  · simp [not_lt.mpr h, max_eq_left h]

theorem MovingMin.push_push_stack_eq [LinearOrder α] (s : MovingMin α)
    (v : α) :
    (s.push v).push_stack =
      (v, match s.push_stack.head? with
          | some (_, m) => Min.min v m
          | none => v) :: s.push_stack := by
  cases hps : s.push_stack with
  | nil => simp [MovingMin.push, hps]
  | cons e rest =>
      obtain ⟨u, m⟩ := e
      rcases lt_or_ge m v with hlt | hge
      · simp [MovingMin.push, hps, gt_iff_lt, hlt, min_eq_right hlt.le]
      · simp [MovingMin.push, hps, gt_iff_lt, not_lt.mpr hge,
          min_eq_left hge]

theorem MovingMin.push_pop_stack_eq [LinearOrder α] (s : MovingMin α)
    (v : α) : (s.push v).pop_stack = s.pop_stack := by
  simp [MovingMin.push]

theorem minStackInv_push [LinearOrder α] (s : MovingMin α) (v : α)
    (h : MinStackInv s.push_stack) :
    MinStackInv (s.push v).push_stack := by
  rw [MovingMin.push_push_stack_eq]
  cases hps : s.push_stack with
  | nil => simp [MinStackInv, naiveMin]
  | cons e rest =>
      obtain ⟨u, m⟩ := e
      rw [hps] at h
      refine ⟨?_, h⟩
      simp only [List.head?_cons, List.map_cons, naiveMin_cons, h.1]
      simp [omin]

theorem transferMin_inv [LinearOrder α] :
    ∀ (l acc : List (α × α)), acc ≠ [] → MinStackInv acc →
      transferMin l acc ≠ [] ∧ MinStackInv (transferMin l acc) := by
  intro l
  induction l with
  | nil => intro acc hne hinv; exact ⟨hne, hinv⟩
  | cons e rest ih =>
      obtain ⟨v, ann⟩ := e
      intro acc hne hinv
      cases acc with
      | nil => exact absurd rfl hne
      | cons f acc2 =>
          obtain ⟨u, m⟩ := f
          have hstep : transferMin ((v, ann) :: rest) ((u, m) :: acc2)
              = transferMin rest
                  ((v, if m < v then m else v) :: (u, m) :: acc2) := by
            simp [transferMin]
          rw [hstep]
          apply ih _ (List.cons_ne_nil _ _)
          refine ⟨?_, hinv⟩
          rw [ite_lt_eq_min]
          simp only [List.map_cons, naiveMin_cons, hinv.1]
          simp [omin]

theorem transferMin_map_fst [LinearOrder α] :
    ∀ (l acc : List (α × α)),
      (transferMin l acc).map Prod.fst
        = (l.map Prod.fst).reverse ++ acc.map Prod.fst := by
  intro l
  induction l with
  | nil => intro acc; simp [transferMin]
  | cons e rest ih =>
      obtain ⟨v, ann⟩ := e
      intro acc
      have hstep : transferMin ((v, ann) :: rest) acc
          = transferMin rest
              ((v, match acc.head? with
                   | some last => if last.2 < v then last.2 else v
                   | none => v) :: acc) := by
        simp [transferMin]
      rw [hstep, ih]
      simp [List.reverse_cons, List.append_assoc]

theorem MovingMin.inv_new [LinearOrder α] :
    (MovingMin.new : MovingMin α).Inv := ⟨trivial, trivial⟩

theorem MovingMin.inv_push [LinearOrder α] (s : MovingMin α) (v : α)
    (h : s.Inv) : (s.push v).Inv := by
  refine ⟨minStackInv_push s v h.1, ?_⟩
  rw [MovingMin.push_pop_stack_eq]
  exact h.2

theorem MovingMin.inv_pop [LinearOrder α] (s : MovingMin α)
    (h : s.Inv) : (s.pop).2.Inv := by
  cases hpop : s.pop_stack with
  | nil =>
      cases hpush : s.push_stack with
      | nil => simpa [MovingMin.pop, hpop, hpush] using h
      | cons e rest =>
          obtain ⟨v, ann⟩ := e
          have hbase : MinStackInv ([(v, v)] : List (α × α)) := by
            simp [MinStackInv, naiveMin]
          have htr := transferMin_inv rest [(v, v)]
            (List.cons_ne_nil _ _) hbase
          refine ⟨?_, ?_⟩
          · show MinStackInv (s.pop).2.push_stack
            simp only [MovingMin.pop, hpop, hpush]
            trivial
          · show MinStackInv (s.pop).2.pop_stack
            simp only [MovingMin.pop, hpop, hpush]
            exact minStackInv_tail htr.2
  | cons e popRest =>
      obtain ⟨v, ann⟩ := e
      refine ⟨?_, ?_⟩
      · show MinStackInv (s.pop).2.push_stack
        simp only [MovingMin.pop, hpop]
        exact h.1
      · show MinStackInv (s.pop).2.pop_stack
        simp only [MovingMin.pop, hpop]
        have := h.2
        rw [hpop] at this
        exact this.2

theorem MovingMin.inv_run [LinearOrder α] :
    ∀ (ops : List (Op α)) (s : MovingMin α), s.Inv →
      (MovingMin.run ops s).Inv := by
  intro ops
  induction ops with
  | nil => intro s h; exact h
  | cons op rest ih =>
      intro s h
      cases op with
      | push v => exact ih _ (s.inv_push v h)
      | pop => exact ih _ (s.inv_pop h)

theorem MovingMin.window_push [LinearOrder α] (s : MovingMin α) (v : α) :
    (s.push v).window = s.window ++ [v] := by
  simp only [MovingMin.window, MovingMin.push_push_stack_eq,
    MovingMin.push_pop_stack_eq, List.map_cons, List.reverse_cons,
    List.append_assoc]

theorem MovingMin.pop_fst_eq [LinearOrder α] (s : MovingMin α) :
    (s.pop).1 = (s.window).head? := by
  cases hpop : s.pop_stack with
  | nil =>
      cases hpush : s.push_stack with
      | nil => simp [MovingMin.pop, hpop, hpush, MovingMin.window]
      | cons e rest =>
          obtain ⟨v, ann⟩ := e
          simp [MovingMin.pop, hpop, hpush, MovingMin.window,
            ← List.head?_map, transferMin_map_fst]
  | cons e popRest =>
      obtain ⟨v, ann⟩ := e
      simp [MovingMin.pop, hpop, MovingMin.window]

theorem map_tail_comm {β : Type u} {γ : Type u} (f : β → γ)
    (l : List β) : l.tail.map f = (l.map f).tail := by
  cases l <;> simp

theorem MovingMin.pop_window [LinearOrder α] (s : MovingMin α) :
    (s.pop).2.window = (s.window).tail := by
  cases hpop : s.pop_stack with
  | nil =>
      cases hpush : s.push_stack with
      | nil => simp [MovingMin.pop, hpop, hpush, MovingMin.window]
      | cons e rest =>
          obtain ⟨v, ann⟩ := e
          simp [MovingMin.pop, hpop, hpush, MovingMin.window,
            map_tail_comm, transferMin_map_fst]
  | cons e popRest =>
      obtain ⟨v, ann⟩ := e
      simp [MovingMin.pop, hpop, MovingMin.window]

theorem ite_lt_left_eq_min [LinearOrder α] (a b : α) :
    (if a < b then a else b) = Min.min a b := by
  rw [ite_lt_eq_min a b, min_comm]

theorem ite_gt_left_eq_max [LinearOrder α] (a b : α) :
    (if a > b then a else b) = Max.max a b := by
  rw [ite_gt_eq_max a b, max_comm]

theorem MovingMin.min_eq_naive [LinearOrder α] (s : MovingMin α)
    (h : s.Inv) : s.min = naiveMin s.window := by
  cases hpush : s.push_stack with
  | nil =>
      cases hpop : s.pop_stack with
      | nil => simp [MovingMin.min, MovingMin.window, hpush, hpop, naiveMin]
      | cons e popRest =>
          obtain ⟨u, b⟩ := e
          have h2 := h.2
          rw [hpop] at h2
          simp only [MovingMin.min, MovingMin.window, hpush, hpop,
            List.head?_nil, List.head?_cons, List.map_cons, List.map_nil,
            List.reverse_nil, List.append_nil]
          exact h2.1.symm
  | cons e pushRest =>
      obtain ⟨w, a⟩ := e
      have h1 := h.1
      rw [hpush] at h1
      cases hpop : s.pop_stack with
      | nil =>
          simp only [MovingMin.min, MovingMin.window, hpush, hpop,
            List.head?_nil, List.head?_cons, List.map_cons, List.map_nil,
            List.nil_append, naiveMin_reverse]
          exact h1.1.symm
      | cons f popRest =>
          obtain ⟨u, b⟩ := f
          have h2 := h.2
          rw [hpop] at h2
          simp only [MovingMin.min, MovingMin.window, hpush, hpop,
            List.head?_cons, List.map_cons, naiveMin_append,
            naiveMin_reverse, h1.1, h2.1]
          rw [ite_lt_left_eq_min]
          simp [omin, min_comm]

theorem MovingMin.min_none_iff_window_nil [LinearOrder α]
    (s : MovingMin α) : s.min = none ↔ s.window = [] := by
  cases hpush : s.push_stack with
  | nil =>
      cases hpop : s.pop_stack with
      | nil => simp [MovingMin.min, MovingMin.window, hpush, hpop]
      | cons e popRest =>
          simp [MovingMin.min, MovingMin.window, hpush, hpop]
  | cons e pushRest =>
      cases hpop : s.pop_stack with
      | nil => simp [MovingMin.min, MovingMin.window, hpush, hpop]
      | cons f popRest =>
          simp [MovingMin.min, MovingMin.window, hpush, hpop]

theorem MovingMax.push_push_stack_eq_max [LinearOrder α] (s : MovingMax α)
    (v : α) :
    (s.push v).push_stack =
      (v, match s.push_stack.head? with
          | some (_, m) => Max.max v m
          | none => v) :: s.push_stack := by
  cases hps : s.push_stack with
  | nil => simp [MovingMax.push, hps]
  | cons e rest =>
      obtain ⟨u, m⟩ := e
      rcases lt_or_ge v m with hlt | hge
      · simp [MovingMax.push, hps, hlt, max_eq_right hlt.le]
      · simp [MovingMax.push, hps, not_lt.mpr hge, max_eq_left hge]

theorem MovingMax.push_pop_stack_eq_max [LinearOrder α] (s : MovingMax α)
    (v : α) : (s.push v).pop_stack = s.pop_stack := by
  simp [MovingMax.push]

theorem maxStackInv_push [LinearOrder α] (s : MovingMax α) (v : α)
    (h : MaxStackInv s.push_stack) :
    MaxStackInv (s.push v).push_stack := by
  rw [MovingMax.push_push_stack_eq_max]
  cases hps : s.push_stack with
  | nil => simp [MaxStackInv, naiveMax]
  | cons e rest =>
      obtain ⟨u, m⟩ := e
      rw [hps] at h
      refine ⟨?_, h⟩
      simp only [List.head?_cons, List.map_cons, naiveMax_cons, h.1]
      simp [omax]

theorem transferMax_inv [LinearOrder α] :
    ∀ (l acc : List (α × α)), acc ≠ [] → MaxStackInv acc →
      transferMax l acc ≠ [] ∧ MaxStackInv (transferMax l acc) := by
  intro l
  induction l with
  | nil => intro acc hne hinv; exact ⟨hne, hinv⟩
  | cons e rest ih =>
      obtain ⟨v, ann⟩ := e
      intro acc hne hinv
      cases acc with
      | nil => exact absurd rfl hne
      | cons f acc2 =>
          obtain ⟨u, m⟩ := f
          have hstep : transferMax ((v, ann) :: rest) ((u, m) :: acc2)
              = transferMax rest
                  ((v, if m > v then m else v) :: (u, m) :: acc2) := by
            simp [transferMax]
          rw [hstep]
          apply ih _ (List.cons_ne_nil _ _)
          refine ⟨?_, hinv⟩
          rw [ite_gt_eq_max]
          simp only [List.map_cons, naiveMax_cons, hinv.1]
          simp [omax]

theorem transferMax_map_fst [LinearOrder α] :
    ∀ (l acc : List (α × α)),
      (transferMax l acc).map Prod.fst
        = (l.map Prod.fst).reverse ++ acc.map Prod.fst := by
  intro l
  induction l with
  | nil => intro acc; simp [transferMax]
  | cons e rest ih =>
      obtain ⟨v, ann⟩ := e
      intro acc
      have hstep : transferMax ((v, ann) :: rest) acc
          = transferMax rest
              ((v, match acc.head? with
                   | some last => if last.2 > v then last.2 else v
                   | none => v) :: acc) := by
        simp [transferMax]
      rw [hstep, ih]
      simp [List.reverse_cons, List.append_assoc]

theorem MovingMax.inv_new_max [LinearOrder α] :
    (MovingMax.new : MovingMax α).Inv := ⟨trivial, trivial⟩

theorem MovingMax.inv_push_max [LinearOrder α] (s : MovingMax α) (v : α)
    (h : s.Inv) : (s.push v).Inv := by
  refine ⟨maxStackInv_push s v h.1, ?_⟩
  rw [MovingMax.push_pop_stack_eq_max]
  exact h.2

theorem MovingMax.inv_pop_max [LinearOrder α] (s : MovingMax α)
    (h : s.Inv) : (s.pop).2.Inv := by
  cases hpop : s.pop_stack with
  | nil =>
      cases hpush : s.push_stack with
      | nil => simpa [MovingMax.pop, hpop, hpush] using h
      | cons e rest =>
          obtain ⟨v, ann⟩ := e
          have hbase : MaxStackInv ([(v, v)] : List (α × α)) := by
            simp [MaxStackInv, naiveMax]
          have htr := transferMax_inv rest [(v, v)]
            (List.cons_ne_nil _ _) hbase
          refine ⟨?_, ?_⟩
          · show MaxStackInv (s.pop).2.push_stack
            simp only [MovingMax.pop, hpop, hpush]
            trivial
          · show MaxStackInv (s.pop).2.pop_stack
            simp only [MovingMax.pop, hpop, hpush]
            exact maxStackInv_tail htr.2
  | cons e popRest =>
      obtain ⟨v, ann⟩ := e
      refine ⟨?_, ?_⟩
      · show MaxStackInv (s.pop).2.push_stack
        simp only [MovingMax.pop, hpop]
        exact h.1
      · show MaxStackInv (s.pop).2.pop_stack
        simp only [MovingMax.pop, hpop]
        have := h.2
        rw [hpop] at this
        exact this.2

theorem MovingMax.inv_run_max [LinearOrder α] :
    ∀ (ops : List (Op α)) (s : MovingMax α), s.Inv →
      (MovingMax.run ops s).Inv := by
  intro ops
  induction ops with
  | nil => intro s h; exact h
  | cons op rest ih =>
      intro s h
      cases op with
      | push v => exact ih _ (s.inv_push_max v h)
      | pop => exact ih _ (s.inv_pop_max h)

theorem MovingMax.window_push_max [LinearOrder α] (s : MovingMax α) (v : α) :
    (s.push v).window = s.window ++ [v] := by
  simp only [MovingMax.window, MovingMax.push_push_stack_eq_max,
    MovingMax.push_pop_stack_eq_max, List.map_cons, List.reverse_cons,
    List.append_assoc]

theorem MovingMax.pop_fst_eq_max [LinearOrder α] (s : MovingMax α) :
    (s.pop).1 = (s.window).head? := by
  cases hpop : s.pop_stack with
  | nil =>
      cases hpush : s.push_stack with
      | nil => simp [MovingMax.pop, hpop, hpush, MovingMax.window]
      | cons e rest =>
          obtain ⟨v, ann⟩ := e
          simp [MovingMax.pop, hpop, hpush, MovingMax.window,
            ← List.head?_map, transferMax_map_fst]
  | cons e popRest =>
      obtain ⟨v, ann⟩ := e
      simp [MovingMax.pop, hpop, MovingMax.window]

theorem MovingMax.pop_window_max [LinearOrder α] (s : MovingMax α) :
    (s.pop).2.window = (s.window).tail := by
  cases hpop : s.pop_stack with
  | nil =>
      cases hpush : s.push_stack with
      | nil => simp [MovingMax.pop, hpop, hpush, MovingMax.window]
      | cons e rest =>
          obtain ⟨v, ann⟩ := e
          simp [MovingMax.pop, hpop, hpush, MovingMax.window,
            map_tail_comm, transferMax_map_fst]
  | cons e popRest =>
      obtain ⟨v, ann⟩ := e
      simp [MovingMax.pop, hpop, MovingMax.window]

theorem MovingMax.max_eq_naive [LinearOrder α] (s : MovingMax α)
    (h : s.Inv) : s.max = naiveMax s.window := by
  cases hpush : s.push_stack with
  | nil =>
      cases hpop : s.pop_stack with
      | nil => simp [MovingMax.max, MovingMax.window, hpush, hpop, naiveMax]
      | cons e popRest =>
          obtain ⟨u, b⟩ := e
          have h2 := h.2
          rw [hpop] at h2
          simp only [MovingMax.max, MovingMax.window, hpush, hpop,
            List.head?_nil, List.head?_cons, List.map_cons, List.map_nil,
            List.reverse_nil, List.append_nil]
          exact h2.1.symm
  | cons e pushRest =>
      obtain ⟨w, a⟩ := e
      have h1 := h.1
      rw [hpush] at h1
      cases hpop : s.pop_stack with
      | nil =>
          simp only [MovingMax.max, MovingMax.window, hpush, hpop,
            List.head?_nil, List.head?_cons, List.map_cons, List.map_nil,
            List.nil_append, naiveMax_reverse]
          exact h1.1.symm
      | cons f popRest =>
          obtain ⟨u, b⟩ := f
          have h2 := h.2
          rw [hpop] at h2
          simp only [MovingMax.max, MovingMax.window, hpush, hpop,
            List.head?_cons, List.map_cons, naiveMax_append,
            naiveMax_reverse, h1.1, h2.1]
          rw [ite_gt_left_eq_max]
          simp [omax, max_comm]

theorem MovingMax.max_none_iff_window_nil [LinearOrder α]
    (s : MovingMax α) : s.max = none ↔ s.window = [] := by
  cases hpush : s.push_stack with
  | nil =>
      cases hpop : s.pop_stack with
      | nil => simp [MovingMax.max, MovingMax.window, hpush, hpop]
      | cons e popRest =>
          simp [MovingMax.max, MovingMax.window, hpush, hpop]
  | cons e pushRest =>
      cases hpop : s.pop_stack with
      | nil => simp [MovingMax.max, MovingMax.window, hpush, hpop]
      | cons f popRest =>
          simp [MovingMax.max, MovingMax.window, hpush, hpop]

theorem MovingMin.pushAll_window [LinearOrder α] :
    ∀ (vs : List α) (s : MovingMin α),
      (MovingMin.pushAll vs s).window = s.window ++ vs := by
  intro vs
  induction vs with
  | nil => intro s; simp [MovingMin.pushAll]
  | cons v vs ih =>
      intro s
      simp [MovingMin.pushAll, ih, MovingMin.window_push]

theorem MovingMax.pushAll_window_max [LinearOrder α] :
    ∀ (vs : List α) (s : MovingMax α),
      (MovingMax.pushAll vs s).window = s.window ++ vs := by
  intro vs
  induction vs with
  | nil => intro s; simp [MovingMax.pushAll]
  | cons v vs ih =>
      intro s
      simp [MovingMax.pushAll, ih, MovingMax.window_push_max]

theorem MovingMin.drain_eq [LinearOrder α] :
    ∀ (n : Nat) (s : MovingMin α),
      MovingMin.drain n s
        = ((s.window).take n).map some
          ++ List.replicate (n - (s.window).length) none := by
  intro n
  induction n with
  | zero => intro s; simp [MovingMin.drain]
  | succ k ih =>
      intro s
      have hfst := s.pop_fst_eq
      have hwin := s.pop_window
      cases hw : s.window with
      | nil =>
          rw [hw] at hfst hwin
          simp [MovingMin.drain, ih, hfst, hwin, hw, List.replicate_succ]
      | cons x xs =>
          rw [hw] at hfst hwin
          simp [MovingMin.drain, ih, hfst, hwin, hw, Nat.succ_sub_succ]

theorem MovingMax.drain_eq_max [LinearOrder α] :
    ∀ (n : Nat) (s : MovingMax α),
      MovingMax.drain n s
        = ((s.window).take n).map some
          ++ List.replicate (n - (s.window).length) none := by
  intro n
  induction n with
  | zero => intro s; simp [MovingMax.drain]
  | succ k ih =>
      intro s
      have hfst := s.pop_fst_eq_max
      have hwin := s.pop_window_max
      cases hw : s.window with
      | nil =>
          rw [hw] at hfst hwin
          simp [MovingMax.drain, ih, hfst, hwin, hw, List.replicate_succ]
      | cons x xs =>
          rw [hw] at hfst hwin
          simp [MovingMax.drain, ih, hfst, hwin, hw, Nat.succ_sub_succ]

theorem MovingMin.len_push [LinearOrder α] (s : MovingMin α) (v : α) :
    (s.push v).len = s.len + 1 := by
  simp only [MovingMin.len, MovingMin.push_push_stack_eq,
    MovingMin.push_pop_stack_eq, List.length_cons]
  omega

theorem MovingMax.len_push_max [LinearOrder α] (s : MovingMax α) (v : α) :
    (s.push v).len = s.len + 1 := by
  simp only [MovingMax.len, MovingMax.push_push_stack_eq_max,
    MovingMax.push_pop_stack_eq_max, List.length_cons]
  omega

theorem MovingMin.window_length (s : MovingMin α) :
    (s.window).length = s.len := by
  simp only [MovingMin.window, MovingMin.len, List.length_append,
    List.length_reverse, List.length_map]
  omega

theorem MovingMax.window_length_max (s : MovingMax α) :
    (s.window).length = s.len := by
  simp only [MovingMax.window, MovingMax.len, List.length_append,
    List.length_reverse, List.length_map]
  omega

theorem MovingMin.len_run_eq [LinearOrder α] :
    ∀ (ops : List (Op α)) (s : MovingMin α),
      (MovingMin.run ops s).len + MovingMin.countOkPops ops s
        = s.len + countPushes ops := by
  intro ops
  induction ops with
  | nil => intro s; simp [MovingMin.run, MovingMin.countOkPops, countPushes]
  | cons op rest ih =>
      intro s
      cases op with
      | push v =>
          simp only [MovingMin.run, MovingMin.countOkPops, countPushes]
          rw [ih, MovingMin.len_push]
          omega
      | pop =>
          rcases hp : s.pop with ⟨r, s2⟩
          have hfst : s.window.head? = r := by rw [← s.pop_fst_eq, hp]
          have hwin : s2.window = s.window.tail := by
            rw [← s.pop_window, hp]
          have hrun : MovingMin.run (Op.pop :: rest) s
              = MovingMin.run rest s2 := by
            simp [MovingMin.run, hp]
          have hih := ih s2
          cases r with
          | none =>
              have hcnt : MovingMin.countOkPops (Op.pop :: rest) s
                  = MovingMin.countOkPops rest s2 := by
                simp [MovingMin.countOkPops, hp]
              rw [hrun, hcnt]
              simp only [countPushes]
              have hnil : s.window = [] := List.head?_eq_none_iff.mp hfst
              have hlen : s.len = 0 := by
                rw [← s.window_length, hnil]; rfl
              have hlen2 : s2.len = 0 := by
                rw [← s2.window_length, hwin, hnil]; rfl
              omega
          | some x =>
              have hcnt : MovingMin.countOkPops (Op.pop :: rest) s
                  = MovingMin.countOkPops rest s2 + 1 := by
                simp [MovingMin.countOkPops, hp]
              rw [hrun, hcnt]
              simp only [countPushes]
              have hlen2 : s2.len + 1 = s.len := by
                rw [← s.window_length, ← s2.window_length, hwin]
                cases hw : s.window with
                | nil => rw [hw] at hfst; simp at hfst
                | cons y ys => simp
              omega

theorem MovingMax.len_run_eq_max [LinearOrder α] :
    ∀ (ops : List (Op α)) (s : MovingMax α),
      (MovingMax.run ops s).len + MovingMax.countOkPops ops s
        = s.len + countPushes ops := by
  intro ops
  induction ops with
  | nil => intro s; simp [MovingMax.run, MovingMax.countOkPops, countPushes]
  | cons op rest ih =>
      intro s
      cases op with
      | push v =>
          simp only [MovingMax.run, MovingMax.countOkPops, countPushes]
          rw [ih, MovingMax.len_push_max]
          omega
      | pop =>
          rcases hp : s.pop with ⟨r, s2⟩
          have hfst : s.window.head? = r := by rw [← s.pop_fst_eq_max, hp]
          have hwin : s2.window = s.window.tail := by
            rw [← s.pop_window_max, hp]
          have hrun : MovingMax.run (Op.pop :: rest) s
              = MovingMax.run rest s2 := by
            simp [MovingMax.run, hp]
          have hih := ih s2
          cases r with
          | none =>
              have hcnt : MovingMax.countOkPops (Op.pop :: rest) s
                  = MovingMax.countOkPops rest s2 := by
                simp [MovingMax.countOkPops, hp]
              rw [hrun, hcnt]
              simp only [countPushes]
              have hnil : s.window = [] := List.head?_eq_none_iff.mp hfst
              have hlen : s.len = 0 := by
                rw [← s.window_length_max, hnil]; rfl
              have hlen2 : s2.len = 0 := by
                rw [← s2.window_length_max, hwin, hnil]; rfl
              omega
          | some x =>
              have hcnt : MovingMax.countOkPops (Op.pop :: rest) s
                  = MovingMax.countOkPops rest s2 + 1 := by
                simp [MovingMax.countOkPops, hp]
              rw [hrun, hcnt]
              simp only [countPushes]
              have hlen2 : s2.len + 1 = s.len := by
                rw [← s.window_length_max, ← s2.window_length_max, hwin]
                cases hw : s.window with
                | nil => rw [hw] at hfst; simp at hfst
                | cons y ys => simp
              omega

theorem transferMinChecked_eq [LinearOrder α] :
    ∀ (l acc : List (α × α)), acc ≠ [] →
      transferMinChecked l acc = some (transferMin l acc) := by
  intro l
  induction l with
  | nil => intro acc hne; simp [transferMinChecked, transferMin]
  | cons e rest ih =>
      obtain ⟨v, ann⟩ := e
      intro acc hne
      cases acc with
      | nil => exact absurd rfl hne
      | cons f acc2 =>
          simp only [transferMinChecked, transferMin, List.head?_cons]
          exact ih _ (List.cons_ne_nil _ _)

theorem transferMaxChecked_eq [LinearOrder α] :
    ∀ (l acc : List (α × α)), acc ≠ [] →
      transferMaxChecked l acc = some (transferMax l acc) := by
  intro l
  induction l with
  | nil => intro acc hne; simp [transferMaxChecked, transferMax]
  | cons e rest ih =>
      obtain ⟨v, ann⟩ := e
      intro acc hne
      cases acc with
      | nil => exact absurd rfl hne
      | cons f acc2 =>
          simp only [transferMaxChecked, transferMax, List.head?_cons]
          exact ih _ (List.cons_ne_nil _ _)

theorem MovingMin.popChecked_eq [LinearOrder α] (s : MovingMin α) :
    s.popChecked = some (s.pop) := by
  cases hpop : s.pop_stack with
  | nil =>
      cases hpush : s.push_stack with
      | nil => simp [MovingMin.popChecked, MovingMin.pop, hpop, hpush]
      | cons e rest =>
          obtain ⟨v, ann⟩ := e
          simp [MovingMin.popChecked, MovingMin.pop, hpop, hpush,
            transferMinChecked_eq rest [(v, v)] (List.cons_ne_nil _ _)]
  | cons e popRest =>
      obtain ⟨v, ann⟩ := e
      simp [MovingMin.popChecked, MovingMin.pop, hpop]

theorem MovingMax.popChecked_eq_max [LinearOrder α] (s : MovingMax α) :
    s.popChecked = some (s.pop) := by
  cases hpop : s.pop_stack with
  | nil =>
      cases hpush : s.push_stack with
      | nil => simp [MovingMax.popChecked, MovingMax.pop, hpop, hpush]
      | cons e rest =>
          obtain ⟨v, ann⟩ := e
          simp [MovingMax.popChecked, MovingMax.pop, hpop, hpush,
            transferMaxChecked_eq rest [(v, v)] (List.cons_ne_nil _ _)]
  | cons e popRest =>
      obtain ⟨v, ann⟩ := e
      simp [MovingMax.popChecked, MovingMax.pop, hpop]

theorem MovingMin.pot_push [LinearOrder α] (s : MovingMin α) (v : α) :
    (s.push v).pot = s.pot + 3 := by
  simp only [MovingMin.pot, MovingMin.push_push_stack_eq,
    MovingMin.push_pop_stack_eq, List.length_cons]
  omega

theorem MovingMax.pot_push_max [LinearOrder α] (s : MovingMax α) (v : α) :
    (s.push v).pot = s.pot + 3 := by
  simp only [MovingMax.pot, MovingMax.push_push_stack_eq_max,
    MovingMax.push_pop_stack_eq_max, List.length_cons]
  omega

theorem MovingMin.pop_pot [LinearOrder α] (s : MovingMin α) :
    s.popCost + (s.pop).2.pot ≤ s.pot := by
  cases hpop : s.pop_stack with
  | nil =>
      cases hpush : s.push_stack with
      | nil =>
          simp [MovingMin.popCost, MovingMin.pop, MovingMin.pot,
            hpop, hpush]
      | cons e rest =>
          obtain ⟨v, ann⟩ := e
          have hlen : (transferMin rest [(v, v)]).length
              = rest.length + 1 := by
            have h := congrArg List.length
              (transferMin_map_fst rest [(v, v)])
            simpa using h
          simp only [MovingMin.popCost, MovingMin.pop, MovingMin.pot,
            hpop, hpush, List.length_cons, List.length_nil,
            List.length_tail, hlen]
          omega
  | cons e popRest =>
      simp only [MovingMin.popCost, MovingMin.pop, MovingMin.pot, hpop,
        List.length_cons]
      omega

theorem MovingMax.pop_pot_max [LinearOrder α] (s : MovingMax α) :
    s.popCost + (s.pop).2.pot ≤ s.pot := by
  cases hpop : s.pop_stack with
  | nil =>
      cases hpush : s.push_stack with
      | nil =>
          simp [MovingMax.popCost, MovingMax.pop, MovingMax.pot,
            hpop, hpush]
      | cons e rest =>
          obtain ⟨v, ann⟩ := e
          have hlen : (transferMax rest [(v, v)]).length
              = rest.length + 1 := by
            have h := congrArg List.length
              (transferMax_map_fst rest [(v, v)])
            simpa using h
          simp only [MovingMax.popCost, MovingMax.pop, MovingMax.pot,
            hpop, hpush, List.length_cons, List.length_nil,
            List.length_tail, hlen]
          omega
  | cons e popRest =>
      simp only [MovingMax.popCost, MovingMax.pop, MovingMax.pot, hpop,
        List.length_cons]
      omega

theorem MovingMin.runCost_pot [LinearOrder α] :
    ∀ (ops : List (Op α)) (s : MovingMin α),
      MovingMin.runCost ops s + (MovingMin.run ops s).pot
        ≤ s.pot + 5 * countPushes ops := by
  intro ops
  induction ops with
  | nil => intro s; simp [MovingMin.runCost, MovingMin.run, countPushes]
  | cons op rest ih =>
      intro s
      cases op with
      | push v =>
          have hih := ih (s.push v)
          have hpot := s.pot_push v
          simp only [MovingMin.runCost, MovingMin.run, countPushes]
          omega
      | pop =>
          have hih := ih (s.pop).2
          have hpot := s.pop_pot
          simp only [MovingMin.runCost, MovingMin.run, countPushes]
          omega

theorem MovingMax.runCost_pot_max [LinearOrder α] :
    ∀ (ops : List (Op α)) (s : MovingMax α),
      MovingMax.runCost ops s + (MovingMax.run ops s).pot
        ≤ s.pot + 5 * countPushes ops := by
  intro ops
  induction ops with
  | nil => intro s; simp [MovingMax.runCost, MovingMax.run, countPushes]
  | cons op rest ih =>
      intro s
      cases op with
      | push v =>
          have hih := ih (s.push v)
          have hpot := s.pot_push_max v
          simp only [MovingMax.runCost, MovingMax.run, countPushes]
          omega
      | pop =>
          have hih := ih (s.pop).2
          have hpot := s.pop_pot_max
          simp only [MovingMax.runCost, MovingMax.run, countPushes]
          omega

theorem MovingMax.toDualMin_len (s : MovingMax α) :
    s.toDualMin.len = s.len := by
  simp [MovingMax.toDualMin, MovingMin.len, MovingMax.len]

theorem MovingMax.toDualMin_push [LinearOrder α] (s : MovingMax α)
    (v : α) :
    (s.push v).toDualMin = (s.toDualMin).push (OrderDual.toDual v) := by
  cases hps : s.push_stack with
  | nil =>
      simp [MovingMax.toDualMin, MovingMax.push, MovingMin.push, hps,
        dualPair]
  | cons e rest =>
      obtain ⟨u, m⟩ := e
      by_cases h : v < m
      · simp [MovingMax.toDualMin, MovingMax.push, MovingMin.push, hps,
          dualPair, h, gt_iff_lt, OrderDual.toDual_lt_toDual]
      · simp [MovingMax.toDualMin, MovingMax.push, MovingMin.push, hps,
          dualPair, h, gt_iff_lt, OrderDual.toDual_lt_toDual]

theorem transferMax_dual [LinearOrder α] :
    ∀ (l acc : List (α × α)),
      (transferMax l acc).map dualPair
        = transferMin (l.map dualPair) (acc.map dualPair) := by
  intro l
  induction l with
  | nil => intro acc; simp [transferMax, transferMin]
  | cons e rest ih =>
      obtain ⟨v, ann⟩ := e
      intro acc
      cases acc with
      | nil =>
          simp only [transferMax, transferMin, List.map_cons,
            List.map_nil, List.head?_nil, ih, dualPair]
      | cons f acc2 =>
          obtain ⟨u, m⟩ := f
          by_cases h : v < m
          · simp only [transferMax, transferMin, List.map_cons,
              List.head?_cons, ih, dualPair, gt_iff_lt,
              OrderDual.toDual_lt_toDual, h, if_pos]
          · simp only [transferMax, transferMin, List.map_cons,
              List.head?_cons, ih, dualPair, gt_iff_lt,
              OrderDual.toDual_lt_toDual, h, if_neg, if_false]

theorem MovingMax.toDualMin_pop [LinearOrder α] (s : MovingMax α) :
    (s.pop).1.map OrderDual.toDual = ((s.toDualMin).pop).1
    ∧ (s.pop).2.toDualMin = ((s.toDualMin).pop).2 := by
  cases hpop : s.pop_stack with
  | nil =>
      cases hpush : s.push_stack with
      | nil =>
          simp [MovingMax.pop, MovingMin.pop, MovingMax.toDualMin,
            hpop, hpush]
      | cons e rest =>
          obtain ⟨v, ann⟩ := e
          have htr := (transferMax_dual rest [(v, v)]).symm
          simp only [List.map_cons, List.map_nil, dualPair] at htr
          constructor
          · simp [MovingMax.pop, MovingMin.pop, MovingMax.toDualMin,
              hpop, hpush, dualPair, ← List.head?_map, Option.map_map]
            rw [htr]
            rw [List.head?_map, List.head?_map]
            cases hh : (transferMax rest [(v, v)]).head? <;>
              simp [hh, dualPair, Function.comp]
          · simp [MovingMax.pop, MovingMin.pop, MovingMax.toDualMin,
              hpop, hpush, dualPair, map_tail_comm]
            rw [htr]
  | cons e popRest =>
      obtain ⟨v, ann⟩ := e
      constructor
      · simp [MovingMax.pop, MovingMin.pop, MovingMax.toDualMin, hpop,
          dualPair]
      · simp [MovingMax.pop, MovingMin.pop, MovingMax.toDualMin, hpop,
          dualPair]

theorem MovingMax.toDualMin_run [LinearOrder α] :
    ∀ (ops : List (Op α)) (s : MovingMax α),
      (MovingMax.run ops s).toDualMin
        = MovingMin.run (ops.map Op.dual) s.toDualMin := by
  intro ops
  induction ops with
  | nil => intro s; simp [MovingMax.run, MovingMin.run]
  | cons op rest ih =>
      intro s
      cases op with
      | push v =>
          simp only [MovingMax.run, MovingMin.run, List.map_cons,
            Op.dual, ih, MovingMax.toDualMin_push]
      | pop =>
          simp only [MovingMax.run, MovingMin.run, List.map_cons,
            Op.dual, ih, (s.toDualMin_pop).2]

theorem MovingMax.toDualMin_max [LinearOrder α] (s : MovingMax α) :
    (s.max).map OrderDual.toDual = (s.toDualMin).min := by
  cases hpush : s.push_stack with
  | nil =>
      cases hpop : s.pop_stack with
      | nil =>
          simp [MovingMax.max, MovingMin.min, MovingMax.toDualMin,
            hpush, hpop]
      | cons e popRest =>
          simp [MovingMax.max, MovingMin.min, MovingMax.toDualMin,
            hpush, hpop, dualPair]
  | cons e pushRest =>
      obtain ⟨w, a⟩ := e
      cases hpop : s.pop_stack with
      | nil =>
          simp [MovingMax.max, MovingMin.min, MovingMax.toDualMin,
            hpush, hpop, dualPair]
      | cons f popRest =>
          obtain ⟨u, b⟩ := f
          by_cases h : b < a
          · simp [MovingMax.max, MovingMin.min, MovingMax.toDualMin,
              hpush, hpop, dualPair, gt_iff_lt, h,
              OrderDual.toDual_lt_toDual]
          · simp [MovingMax.max, MovingMin.min, MovingMax.toDualMin,
              hpush, hpop, dualPair, gt_iff_lt, h,
              OrderDual.toDual_lt_toDual]

theorem minStackInv_iff_depth [LinearOrder α] :
    ∀ l : List (α × α),
      MinStackInv l ↔ ∀ (i : Nat) (h : i < l.length),
        naiveMin ((l.drop i).map Prod.fst) = some (l.get ⟨i, h⟩).2 := by
  intro l
  induction l with
  | nil => simp [MinStackInv]
  | cons e rest ih =>
      obtain ⟨v, m⟩ := e
      constructor
      · rintro ⟨h1, h2⟩ i hi
        cases i with
        | zero => simpa using h1
        | succ j =>
            have hj : j < rest.length := by
              simpa [Nat.succ_lt_succ_iff] using hi
            have := (ih.mp h2) j hj
            simpa using this
      · intro h
        refine ⟨?_, ih.mpr ?_⟩
        · have := h 0 (by simp)
          simpa using this
        · intro j hj
          have := h (j + 1) (by simpa [Nat.succ_lt_succ_iff] using hj)
          simpa using this

theorem maxStackInv_iff_depth [LinearOrder α] :
    ∀ l : List (α × α),
      MaxStackInv l ↔ ∀ (i : Nat) (h : i < l.length),
        naiveMax ((l.drop i).map Prod.fst) = some (l.get ⟨i, h⟩).2 := by
  intro l
  induction l with
  | nil => simp [MaxStackInv]
  | cons e rest ih =>
      obtain ⟨v, m⟩ := e
      constructor
      · rintro ⟨h1, h2⟩ i hi
        cases i with
        | zero => simpa using h1
        | succ j =>
            have hj : j < rest.length := by
              simpa [Nat.succ_lt_succ_iff] using hi
            have := (ih.mp h2) j hj
            simpa using this
      · intro h
        refine ⟨?_, ih.mpr ?_⟩
        · have := h 0 (by simp)
          simpa using this
        · intro j hj
          have := h (j + 1) (by simpa [Nat.succ_lt_succ_iff] using hj)
          simpa using this

example :
    (MovingMin.run [Op.push 2, Op.push 1, Op.push 3]
      (MovingMin.new : MovingMin Int)).min = some 1 := by decide

example :
    ((MovingMin.run [Op.push 2, Op.push 1, Op.push 3]
      (MovingMin.new : MovingMin Int)).pop).1 = some 2 := by decide

example :
    ((MovingMax.run [Op.push 2, Op.push 3, Op.push 1]
      (MovingMax.new : MovingMax Int)).max) = some 3 := by decide

/-- C1: for every sequence of push and pop operations run from a fresh
tracker, min() (resp. max()) returns exactly the minimum (resp. maximum)
of the multiset of values currently in the window as computed by the naive
rescanning reference implementation, and returns none exactly when the
window is empty. -/
theorem claim_C1_extremum_correctness [LinearOrder α] (ops : List (Op α)) :
    ((MovingMin.run ops MovingMin.new).min
        = naiveMin (MovingMin.run ops MovingMin.new).window)
    ∧ ((MovingMin.run ops MovingMin.new).min = none
        ↔ (MovingMin.run ops MovingMin.new).window = [])
    ∧ ((MovingMax.run ops MovingMax.new).max
        = naiveMax (MovingMax.run ops MovingMax.new).window)
    ∧ ((MovingMax.run ops MovingMax.new).max = none
        ↔ (MovingMax.run ops MovingMax.new).window = []) :=
  ⟨MovingMin.min_eq_naive _ (MovingMin.inv_run ops _ MovingMin.inv_new),
   MovingMin.min_none_iff_window_nil _,
   MovingMax.max_eq_naive _ (MovingMax.inv_run_max ops _ MovingMax.inv_new_max),
   MovingMax.max_none_iff_window_nil _⟩

/-- C2: pushing a list of values and then popping with no interleaved
pushes returns exactly the pushed values, oldest first, followed by none
once the window is drained. -/
theorem claim_C2_fifo_order [LinearOrder α] (vs : List α) (k : Nat) :
    MovingMin.drain (vs.length + k) (MovingMin.pushAll vs MovingMin.new)
      = vs.map some ++ List.replicate k none
    ∧ MovingMax.drain (vs.length + k) (MovingMax.pushAll vs MovingMax.new)
      = vs.map some ++ List.replicate k none := by
  constructor
  · rw [MovingMin.drain_eq, MovingMin.pushAll_window]
    have hw : (MovingMin.new : MovingMin α).window = [] := rfl
    rw [hw, List.nil_append,
      List.take_of_length_le (Nat.le_add_right _ _),
      Nat.add_sub_cancel_left]
  · rw [MovingMax.drain_eq_max, MovingMax.pushAll_window_max]
    have hw : (MovingMax.new : MovingMax α).window = [] := rfl
    rw [hw, List.nil_append,
      List.take_of_length_le (Nat.le_add_right _ _),
      Nat.add_sub_cancel_left]

/-- C3: on a structure with an empty window (both stacks empty, as on a
fresh construction), pop and min/max return none with no state change,
and pushing one value then popping returns that value and restores the
empty-window signal. -/
theorem claim_C3_empty_window_signals [LinearOrder α] (s : MovingMin α)
    (t : MovingMax α) (v w : α)
    (hs : s.push_stack = [] ∧ s.pop_stack = [])
    (ht : t.push_stack = [] ∧ t.pop_stack = []) :
    (s.pop = (none, s) ∧ s.min = none
      ∧ (s.push v).pop = (some v, s)
      ∧ ((s.push v).pop).2.min = none
      ∧ (((s.push v).pop).2.pop).1 = none)
    ∧ (t.pop = (none, t) ∧ t.max = none
      ∧ (t.push w).pop = (some w, t)
      ∧ ((t.push w).pop).2.max = none
      ∧ (((t.push w).pop).2.pop).1 = none) := by
  obtain ⟨hs1, hs2⟩ := hs
  obtain ⟨ht1, ht2⟩ := ht
  cases s with
  | mk ps pp =>
      cases t with
      | mk ts tp =>
          dsimp only at hs1 hs2 ht1 ht2
          subst hs1
          subst hs2
          subst ht1
          subst ht2
          exact ⟨⟨rfl, rfl, rfl, rfl, rfl⟩, ⟨rfl, rfl, rfl, rfl, rfl⟩⟩

/-- C3 witness: the empty-window behaviour at a fresh Int tracker with
value 5. -/
theorem claim_C3_empty_window_signals_w :
    ((MovingMin.new : MovingMin Int).push 5).pop
      = (some 5, MovingMin.new) :=
  (claim_C3_empty_window_signals MovingMin.new MovingMax.new 5 7
    ⟨rfl, rfl⟩ ⟨rfl, rfl⟩).1.2.2.1

/-- C4: after every sequence of operations from a fresh tracker, len()
equals pushes minus successful pops, and for every state len() is the sum
of the two stacks' sizes, which is the window size. -/
theorem claim_C4_len_consistency [LinearOrder α] (ops : List (Op α)) :
    ((MovingMin.run ops MovingMin.new).len
        + MovingMin.countOkPops ops MovingMin.new = countPushes ops)
    ∧ (∀ s : MovingMin α,
        s.len = s.push_stack.length + s.pop_stack.length
        ∧ s.len = (s.window).length)
    ∧ ((MovingMax.run ops MovingMax.new).len
        + MovingMax.countOkPops ops MovingMax.new = countPushes ops)
    ∧ (∀ s : MovingMax α,
        s.len = s.push_stack.length + s.pop_stack.length
        ∧ s.len = (s.window).length) := by
  refine ⟨?_, fun s => ⟨rfl, (s.window_length).symm⟩, ?_,
    fun s => ⟨rfl, (s.window_length_max).symm⟩⟩
  · have h := MovingMin.len_run_eq ops MovingMin.new
    simpa [MovingMin.len, MovingMin.new] using h
  · have h := MovingMax.len_run_eq_max ops MovingMax.new
    simpa [MovingMax.len, MovingMax.new] using h

/-- C5: push(v) appends exactly one pair to the push stack and leaves the
pop stack alone; its second component is v when the push stack was empty
or when v does not exceed (for MovingMin; is not below, for MovingMax)
the previous top's running extremum, and the previous running extremum
otherwise. -/
theorem claim_C5_push_entry_rule [LinearOrder α] (s : MovingMin α)
    (t : MovingMax α) (v : α) :
    ((s.push v).pop_stack = s.pop_stack
      ∧ (s.push_stack = [] → (s.push v).push_stack = (v, v) :: s.push_stack)
      ∧ (∀ u m rest, s.push_stack = (u, m) :: rest →
          (v > m → (s.push v).push_stack = (v, m) :: s.push_stack)
          ∧ (¬ v > m → (s.push v).push_stack = (v, v) :: s.push_stack)))
    ∧ ((t.push v).pop_stack = t.pop_stack
      ∧ (t.push_stack = [] → (t.push v).push_stack = (v, v) :: t.push_stack)
      ∧ (∀ u m rest, t.push_stack = (u, m) :: rest →
          (v < m → (t.push v).push_stack = (v, m) :: t.push_stack)
          ∧ (¬ v < m → (t.push v).push_stack = (v, v) :: t.push_stack))) := by
  refine ⟨⟨MovingMin.push_pop_stack_eq s v, ?_, ?_⟩,
    ⟨MovingMax.push_pop_stack_eq_max t v, ?_, ?_⟩⟩
  · intro h
    simp [MovingMin.push, h]
  · rintro u m rest h
    constructor
    · intro hgt
      simp [MovingMin.push, h, hgt]
    · intro hng
      simp [MovingMin.push, h, hng]
  · intro h
    simp [MovingMax.push, h]
  · rintro u m rest h
    constructor
    · intro hlt
      simp [MovingMax.push, h, hlt]
    · intro hnl
      simp [MovingMax.push, h, hnl]

/-- C6: every state reachable from a fresh tracker satisfies the
running-extremum invariant on both stacks, push and pop preserve it, and
the invariant says exactly that the entry at any depth carries the
extremum of all values from the bottom of its stack up to that depth. -/
theorem claim_C6_running_extremum_invariant [LinearOrder α] :
    (∀ ops : List (Op α), (MovingMin.run ops MovingMin.new).Inv)
    ∧ (∀ (s : MovingMin α) (v : α), s.Inv → (s.push v).Inv ∧ (s.pop).2.Inv)
    ∧ (∀ l : List (α × α),
        MinStackInv l ↔ ∀ (i : Nat) (h : i < l.length),
          naiveMin ((l.drop i).map Prod.fst) = some (l.get ⟨i, h⟩).2)
    ∧ (∀ ops : List (Op α), (MovingMax.run ops MovingMax.new).Inv)
    ∧ (∀ (s : MovingMax α) (v : α), s.Inv → (s.push v).Inv ∧ (s.pop).2.Inv)
    ∧ (∀ l : List (α × α),
        MaxStackInv l ↔ ∀ (i : Nat) (h : i < l.length),
          naiveMax ((l.drop i).map Prod.fst) = some (l.get ⟨i, h⟩).2) :=
  ⟨fun ops => MovingMin.inv_run ops _ MovingMin.inv_new,
   fun s v h => ⟨s.inv_push v h, s.inv_pop h⟩,
   minStackInv_iff_depth,
   fun ops => MovingMax.inv_run_max ops _ MovingMax.inv_new_max,
   fun s v h => ⟨s.inv_push_max v h, s.inv_pop_max h⟩,
   maxStackInv_iff_depth⟩

/-- C7: MovingMax is the exact mirror of MovingMin under the dual order:
running any operation sequence on a MovingMax gives, through the
order-dual transport of states and values, the same state, len, extremum
answer and pop result as running the transported sequence on a MovingMin
over the dual order. -/
theorem claim_C7_min_max_mirror [LinearOrder α] (ops : List (Op α)) :
    (MovingMax.run ops MovingMax.new).toDualMin
      = MovingMin.run (ops.map Op.dual) MovingMin.new
    ∧ (MovingMax.run ops MovingMax.new).len
      = (MovingMin.run (ops.map Op.dual) MovingMin.new).len
    ∧ ((MovingMax.run ops MovingMax.new).max).map OrderDual.toDual
      = (MovingMin.run (ops.map Op.dual) MovingMin.new).min
    ∧ (((MovingMax.run ops MovingMax.new).pop).1).map OrderDual.toDual
      = ((MovingMin.run (ops.map Op.dual) MovingMin.new).pop).1 := by
  have hrun := MovingMax.toDualMin_run ops MovingMax.new
  have hnew : (MovingMax.new : MovingMax α).toDualMin = MovingMin.new := rfl
  rw [hnew] at hrun
  refine ⟨hrun, ?_, ?_, ?_⟩
  · rw [← hrun, MovingMax.toDualMin_len]
  · rw [← hrun, MovingMax.toDualMin_max]
  · rw [← hrun]
    exact (MovingMax.toDualMin_pop _).1

/-- C8: the transfer loop's unchecked index into the pop stack is always
in bounds: a total embedding in which the access is fallible never hits
the failure branch and agrees with the embedding that reads the last
element through the safe accessor, both at the loop level (for any
nonempty accumulator) and for the whole pop operation. -/
theorem claim_C8_transfer_access_safe [LinearOrder α] :
    (∀ (l acc : List (α × α)), acc ≠ [] →
      transferMinChecked l acc = some (transferMin l acc))
    ∧ (∀ s : MovingMin α, s.popChecked = some (s.pop))
    ∧ (∀ (l acc : List (α × α)), acc ≠ [] →
      transferMaxChecked l acc = some (transferMax l acc))
    ∧ (∀ s : MovingMax α, s.popChecked = some (s.pop)) :=
  ⟨transferMinChecked_eq, MovingMin.popChecked_eq,
   transferMaxChecked_eq, MovingMax.popChecked_eq_max⟩

/-- C9: the total elementary work (comparisons plus moves) of any
operation sequence from a fresh tracker is linear in the number of pushes
alone, so pop is amortized O(1), while a single pop is bounded by the
window size (it can be O(n) when a full transfer runs). -/
theorem claim_C9_amortized_cost [LinearOrder α] :
    (∀ ops : List (Op α),
      MovingMin.runCost ops MovingMin.new ≤ 5 * countPushes ops)
    ∧ (∀ s : MovingMin α, s.popCost ≤ 2 * s.len + 1)
    ∧ (∀ ops : List (Op α),
      MovingMax.runCost ops MovingMax.new ≤ 5 * countPushes ops)
    ∧ (∀ s : MovingMax α, s.popCost ≤ 2 * s.len + 1) := by
  refine ⟨?_, ?_, ?_, ?_⟩
  · intro ops
    have h := MovingMin.runCost_pot ops MovingMin.new
    have hnew : (MovingMin.new : MovingMin α).pot = 0 := rfl
    omega
  · intro s
    cases hpop : s.pop_stack with
    | nil =>
        simp only [MovingMin.popCost, MovingMin.len, hpop,
          List.length_nil]
        omega
    | cons e r =>
        simp only [MovingMin.popCost, MovingMin.len, hpop]
        omega
  · intro ops
    have h := MovingMax.runCost_pot_max ops MovingMax.new
    have hnew : (MovingMax.new : MovingMax α).pot = 0 := rfl
    omega
  · intro s
    cases hpop : s.pop_stack with
    | nil =>
        simp only [MovingMax.popCost, MovingMax.len, hpop,
          List.length_nil]
        omega
    | cons e r =>
        simp only [MovingMax.popCost, MovingMax.len, hpop]
        omega

/-- C10: for every state, min() (resp. max()) returns none if and only if
len() returns 0: the two accessors agree on window emptiness. -/
theorem claim_C10_none_iff_len_zero [LinearOrder α] (s : MovingMin α)
    (t : MovingMax α) :
    (s.min = none ↔ s.len = 0) ∧ (t.max = none ↔ t.len = 0) := by
  constructor
  · cases hpush : s.push_stack <;> cases hpop : s.pop_stack <;>
      simp [MovingMin.min, MovingMin.len, hpush, hpop]
  · cases hpush : t.push_stack <;> cases hpop : t.pop_stack <;>
      simp [MovingMax.max, MovingMax.len, hpush, hpop]
